import Mathlib

/-!
Verification development for the orec2 recreation-schedule scraper's text
normalization and parsing core (scraper/main.go and the schema package's
clock/date model). Go strings are modelled as lists of Unicode code points
(`Str := List Char`); byte-level and rune-level operations coincide on the
ASCII data these functions manipulate. Library functions from the Go
standard library and golang.org/x/text are modelled faithfully on the
character sets exercised here, as documented on each definition.
-/

namespace ORec

/-- Model of a Go string as a list of Unicode code points. -/
abbrev Str := List Char

/-- Shorthand for building a character from its code point. -/
def ch (n : Nat) : Char := Char.ofNat n

/-- Space characters recognized by Go's regexp \s class: [\t\n\f\r ]. -/
def reSpace (c : Char) : Bool :=
  c = ' ' || c = '\t' || c = '\n' || c = ch 0x0c || c = ch 0x0d

/-- Characters satisfying Go's unicode.IsSpace (the White_Space property). -/
def goIsSpace (c : Char) : Bool :=
  c = '\t' || c = '\n' || c = ch 0x0b || c = ch 0x0c || c = ch 0x0d || c = ' ' ||
  c = ch 0x85 || c = ch 0xa0 || c = ch 0x1680 ||
  (0x2000 ≤ c.toNat && c.toNat ≤ 0x200a) ||
  c = ch 0x2028 || c = ch 0x2029 || c = ch 0x202f || c = ch 0x205f || c = ch 0x3000

/-- Characters in the Unicode Zs (space separator) category, as tested by
unicode.Is(unicode.Zs, r) in normalizeText. -/
def isZs (c : Char) : Bool :=
  c = ' ' || c = ch 0xa0 || c = ch 0x1680 ||
  (0x2000 ≤ c.toNat && c.toNat ≤ 0x200a) ||
  c = ch 0x202f || c = ch 0x205f || c = ch 0x3000

/-- Characters in the Unicode Pd (dash punctuation) category, as tested by
unicode.Is(unicode.Pd, r) in normalizeText. -/
def isPd (c : Char) : Bool :=
  c = '-' || c = ch 0x58a || c = ch 0x5be || c = ch 0x1400 || c = ch 0x1806 ||
  (0x2010 ≤ c.toNat && c.toNat ≤ 0x2015) ||
  c = ch 0x2e17 || c = ch 0x2e1a || c = ch 0x2e3a || c = ch 0x2e3b || c = ch 0x2e40 ||
  c = ch 0x2e5d || c = ch 0x301c || c = ch 0x3030 || c = ch 0x30a0 ||
  c = ch 0xfe31 || c = ch 0xfe32 || c = ch 0xfe58 || c = ch 0xfe63 || c = ch 0xff0d ||
  c.toNat = 0x10ead

/-- Model of Go's unicode.IsGraphic (categories L, M, N, P, S, Zs). It is
exact on ASCII (the printable range 0x20..0x7e); of the non-ASCII characters
reachable in this development after the earlier normalizeText cases have
already been handled, the graphic ones are listed explicitly and all others
are treated as non-graphic. -/
def isGraphicGo (c : Char) : Bool :=
  if c.toNat < 0x80 then 0x20 ≤ c.toNat && c.toNat ≤ 0x7e
  else c = ch 0x301 || c = ch 0xe9 || c = ch 0xae || c = ch 0xe8 || c = ch 0xc9

/-- Model of Go's unicode.ToLower, exact on ASCII; the non-ASCII characters
exercised in this development are unchanged by ToLower, so it is the
identity there. -/
def toLowerGo (c : Char) : Char :=
  if 'A' ≤ c && c ≤ 'Z' then Char.ofNat (c.toNat + 32) else c

/-- Canonical composition step of Unicode NFKC normalization
(norm.NFKC.String from golang.org/x/text), restricted to the fragment of the
composition table needed for the character sequences analyzed here: LATIN
SMALL LETTER E followed by COMBINING ACUTE ACCENT composes to U+00E9. ASCII
text and text with no composable adjacent pair is left unchanged, exactly as
by the real transformation. -/
def composePair (a b : Char) : Option Char :=
  if a = 'e' && b = ch 0x301 then some (ch 0xe9) else none

/-- Model of NFKC normalization as a single left-to-right canonical
composition pass over `composePair`. The fragment table contains no
composition whose result can compose again, so one pass is exact. -/
def nfkc : Str → Str
  | [] => []
  | [a] => [a]
  | a :: b :: rest =>
    match composePair a b with
    | some c => c :: nfkc rest
    | none => a :: nfkc (b :: rest)

/-- Per-character transformation of normalizeText (the strings.Map
callback), returning none for deleted characters. Follows the source's
check order: zero-width removal, whitespace mapping, Zs mapping, smart
punctuation, dash normalization, non-graphic removal, optional lowercasing. -/
def mapChar (newlines lower : Bool) (c : Char) : Option Char :=
  if c = ch 0x200b || c = ch 0xfeff || c = ch 0x200d || c = ch 0x200c then none
  else if c = '\n' then (if newlines then some '\n' else some ' ')
  else if c = ' ' || c = '\t' || c = ch 0x0b || c = ch 0x0c || c = ch 0xa0 then some ' '
  else if isZs c then some ' '
  else if c = ch 0x201c || c = ch 0x201d || c = ch 0x201f then some '"'
  else if c = ch 0x2018 || c = ch 0x2019 || c = ch 0x201b then some '\''
  else if c = ch 0x2039 then some '<'
  else if c = ch 0x203a then some '>'
  else if isPd c then some '-'
  else if !isGraphicGo c then none
  else if lower then some (toLowerGo c) else some c

/-- Collapse runs of consecutive ASCII spaces to a single space
(slices.CompactFunc with a == ' ' && a == b); all characters of a run are
equal, so keeping the first or the last of each run is the same. -/
def collapseSpaces : Str → Str
  | [] => []
  | [c] => [c]
  | a :: b :: rest =>
    if a = ' ' && b = ' ' then collapseSpaces (b :: rest)
    else a :: collapseSpaces (b :: rest)

/-- Remove trailing characters satisfying p (strings.TrimRight-style). -/
def trimEndBy (p : Char → Bool) (l : Str) : Str :=
  (l.reverse.dropWhile p).reverse

/-- Model of strings.TrimSpace: remove leading and trailing unicode space. -/
def trimSpace (l : Str) : Str :=
  trimEndBy goIsSpace (l.dropWhile goIsSpace)

/-- Model of normalizeText from scraper/main.go: NFKC normalization, the
per-character mapping, collapsing of consecutive ASCII spaces, and trimming
of leading/trailing whitespace. -/
def normalizeText (s : Str) (newlines lower : Bool) : Str :=
  trimSpace (collapseSpaces ((nfkc s).filterMap (mapChar newlines lower)))

/-- Index of the first occurrence of pat as a contiguous substring of s
(strings.Index), measured in list positions. -/
def idxOfSub (pat : Str) : Str → Option Nat
  | [] => if pat = [] then some 0 else none
  | c :: rest =>
    if pat.isPrefixOf (c :: rest) then some 0
    else (idxOfSub pat rest).map (· + 1)

/-- Model of stringsCutFirst from scraper/main.go: cut around the earliest
occurrence of any of the separators, resolving ties in favour of the
earlier-listed separator. -/
def stringsCutFirst (s : Str) (seps : List Str) : Str × Str × Bool :=
  let best := seps.foldl (fun acc sep =>
    match idxOfSub sep s with
    | none => acc
    | some i =>
      match acc with
      | none => some (sep.length, i)
      | some (_, si) => if i < si then some (sep.length, i) else acc) none
  match best with
  | some (sn, si) => (s.take si, s.drop (si + sn), true)
  | none => (s, [], false)

/-- Model of strings.Cut: split around the first occurrence of sep. -/
def goCut (s sep : Str) : Str × Str × Bool :=
  match idxOfSub sep s with
  | some i => (s.take i, s.drop (i + sep.length), true)
  | none => (s, [], false)

/-- Model of strings.CutPrefix. -/
def goCutPre (s pre : Str) : Str × Bool :=
  if pre.isPrefixOf s then (s.drop pre.length, true) else (s, false)

/-- Model of strings.CutSuffix. -/
def goCutSuf (s suf : Str) : Str × Bool :=
  if suf.isSuffixOf s then (s.take (s.length - suf.length), true) else (s, false)

/-- Digit test for ASCII decimal digits. -/
def isDigitCh (c : Char) : Bool := '0' ≤ c && c ≤ '9'

/-- Numeric value of a list of ASCII decimal digits. -/
def digitsVal (l : Str) : Nat :=
  l.foldl (fun acc c => acc * 10 + (c.toNat - 48)) 0

/-- Model of strconv.ParseInt(s, 10, 0): an optional ASCII sign followed by
one or more decimal digits. Overflow of 64-bit integers is not modelled; all
call sites range-check the result far below that bound, so an overflowing
input is rejected either way. -/
def goParseInt10 (s : Str) : Option Int :=
  match s with
  | '+' :: rest =>
    if rest ≠ [] && rest.all isDigitCh then some (digitsVal rest) else none
  | '-' :: rest =>
    if rest ≠ [] && rest.all isDigitCh then some (-(digitsVal rest : Int)) else none
  | _ => if s ≠ [] && s.all isDigitCh then some (digitsVal s) else none

/-- Octal value of a list of ASCII octal digits. -/
def digitsVal8 (l : Str) : Nat :=
  l.foldl (fun acc c => acc * 8 + (c.toNat - 48)) 0

/-- Model of strconv.ParseInt(s, 0, 10) on all-decimal-digit input, as
produced by the age regexp: base 0 means a leading zero selects octal (with
digits 8 and 9 rejected), and bitSize 10 limits the result to at most 511
(larger values make ParseInt return an error, which the caller treats as
failure). -/
def goParseIntB0 (s : Str) : Option Int :=
  match s with
  | [] => none
  | '0' :: rest =>
    if rest = [] then some 0
    else if rest.all (fun c => '0' ≤ c && c ≤ '7') then
      (if digitsVal8 rest ≤ 511 then some (digitsVal8 rest) else none)
    else none
  | _ =>
    if s.all isDigitCh then
      (if digitsVal s ≤ 511 then some (digitsVal s) else none)
    else none

/-- Fold both strings to ASCII lowercase and compare; models
strings.EqualFold for the ASCII month/weekday names it is used with. -/
def eqFold (a b : Str) : Bool :=
  a.map toLowerGo = b.map toLowerGo

/-- ClockTime from the schema package: a signed count of minutes since
00:00 of the reference day, with negative values denoting invalid. -/
abbrev ClockTime := Int

/-- Model of schema.MakeClockTime. -/
def MakeClockTime (hh mm : Int) : Int :=
  if hh < 0 || mm < 0 then -1 else hh * 60 + mm

/-- Model of schema.ClockTime.IsValid. -/
def ClockTime.IsValid (t : Int) : Bool := decide (0 ≤ t)

/-- Model of schema.ClockTime.Split: day offset, hour, and minute of a
valid time (all zero when negative, as in the source). -/
def ClockTime.Split (t : Int) : Nat × Nat × Nat :=
  if 0 ≤ t then (t.toNat / 1440, t.toNat % 1440 / 60, t.toNat % 60)
  else (0, 0, 0)

/-- Character for a single decimal digit value. -/
def digCh (n : Nat) : Char := Char.ofNat (48 + n % 10)

/-- Model of schema.ClockTime.Format: day-offset markers followed by the
zero-padded 24-hour rendering, or the 12-hour rendering with am/pm. -/
def ClockTime.Format (t : Int) (ampm : Bool) : Str :=
  if !ClockTime.IsValid t then "invalid".toList
  else
    let d := (ClockTime.Split t).1
    let hh0 := (ClockTime.Split t).2.1
    let mm := (ClockTime.Split t).2.2
    let isP := ampm && decide (12 ≤ hh0)
    let hh := if isP then hh0 - 12 else hh0
    let hourDigits :=
      if ampm && hh = 0 then ['1', '2']
      else (if !ampm || 10 ≤ hh then [digCh (hh / 10)] else []) ++ [digCh hh]
    let tail0 := if ampm then [(if isP then 'p' else 'a'), 'm'] else []
    List.replicate d '>' ++ hourDigits ++ [':', digCh (mm / 10), digCh mm] ++ tail0

/-- ClockRange from the schema package: an inclusive pair of clock times. -/
structure ClockRange where
  Start : Int
  End : Int
deriving DecidableEq, Repr

/-- Model of schema.ClockRange.IsValid. -/
def ClockRange.IsValid (r : ClockRange) : Bool :=
  ClockTime.IsValid r.Start && ClockTime.IsValid r.End && decide (r.Start < r.End)

/-- Model of schema.ClockRange.Format: both endpoints, with the end's
leading day-offset marker stripped (and with am/pm suffix deduplication)
when the range stays within a day of its start and starts on the first
day. -/
def ClockRange.Format (r : ClockRange) (ampm : Bool) : Str :=
  if !ClockRange.IsValid r then "invalid".toList
  else
    let x := ClockTime.Format r.Start ampm
    let y := ClockTime.Format r.End ampm
    if r.End - r.Start < 1440 && decide (r.Start < 1440) then
      let y2 := if y.head? = some '>' then y.tail else y
      let x2 :=
        if ampm && x.getD (x.length - 2) '?' = y2.getD (y2.length - 2) '?' then
          x.take (x.length - 2)
        else x
      x2 ++ [' ', '-', ' '] ++ y2
    else x ++ [' ', '-', ' '] ++ y

/-- Model of schema.ClockRange.Overlaps: validity of the receiver only,
then the closed-interval intersection test. -/
def ClockRange.Overlaps (r o : ClockRange) : Bool :=
  ClockRange.IsValid r && decide (r.Start ≤ o.End) && decide (o.Start ≤ r.End)

/-- Date from the schema package: a signed integer packing year, month,
day, and weekday into decimal digit groups YYYYMMDDW. -/
abbrev Date := Int

/-- Model of schema.MakeDate. Arguments use the Go conventions: month is
January=1, wkday is Sunday=0 with negative meaning unspecified. Note that
the source guards the weekday addend with day > 0 (the saturated day, not
the weekday itself). -/
def MakeDate (year month day wkday : Int) : Date :=
  let year := min year 9999
  let month := min month 99
  let day := min day 99
  let wkday := min (wkday + 1) 9
  (if 0 < year then year * 100000 else 0) +
  (if 0 < month then month * 1000 else 0) +
  (if 0 < day then day * 10 else 0) +
  (if 0 < day then wkday else 0)

/-- Model of schema.Date.Year: the year digit group and whether it is
present. -/
def dateYear (d : Date) : Int × Bool :=
  if 0 < d then
    let y := d.toNat / 100000 % 10000
    if y ≠ 0 then ((y : Int), true) else (0, false)
  else (0, false)

/-- Model of schema.Date.Month: the month digit group with its validity;
an out-of-range non-zero group is returned with false. -/
def dateMonth (d : Date) : Int × Bool :=
  if 0 < d then
    let m := d.toNat / 1000 % 100
    if m ≠ 0 then
      (if 1 ≤ m && m ≤ 12 then ((m : Int), true) else ((m : Int), false))
    else (0, false)
  else (0, false)

/-- Model of schema.Date.Day: the day digit group with its validity; an
out-of-range non-zero group is returned with false. -/
def dateDay (d : Date) : Int × Bool :=
  if 0 < d then
    let v := d.toNat / 10 % 100
    if v ≠ 0 then
      (if 1 ≤ v && v ≤ 31 then ((v : Int), true) else ((v : Int), false))
    else (0, false)
  else (0, false)

/-- Model of schema.Date.Weekday: the weekday digit group, converted to the
Go Sunday=0 convention when valid; an out-of-range non-zero group is
returned unconverted with false. -/
def dateWeekday (d : Date) : Int × Bool :=
  if 0 < d then
    let w := d.toNat % 10
    if w ≠ 0 then
      (if 1 ≤ w && w ≤ 7 then ((w : Int) - 1, true) else ((w : Int), false))
    else (0, false)
  else (0, false)

/-- Gregorian leap-year rule, as used by Go's time package (proleptic
Gregorian calendar). -/
def isLeap (y : Int) : Bool :=
  y % 4 = 0 && (y % 100 ≠ 0 || y % 400 = 0)

/-- Model of daysInMonth from the schema package (via time.Date
normalization); only ever applied to months 1..12. -/
def daysInMonth (year month : Int) : Int :=
  if month = 2 then (if isLeap year then 29 else 28)
  else if month = 4 || month = 6 || month = 9 || month = 11 then 30
  else 31

/-- Weekday (Sunday=0) of a proleptic Gregorian date, as computed by Go's
time.Date(...).Weekday(); Sakamoto's method. -/
def weekdayOfDate (year month day : Int) : Int :=
  let y := if month < 3 then year - 1 else year
  let t : List Int := [0, 3, 2, 5, 0, 3, 5, 1, 4, 6, 2, 4]
  (y + y.fdiv 4 - y.fdiv 100 + y.fdiv 400 + t.getD (month - 1).toNat 0 + day) % 7

/-- Model of schema.Date.IsValid, mirroring the source's check order. -/
def Date.IsValid (d : Date) : Bool :=
  if d < 0 || 999999999 ≤ d then false
  else if d = 0 then false
  else
    let (wkday, hasWkday) := dateWeekday d
    let (year, hasYear) := dateYear d
    let (month, hasMonth) := dateMonth d
    let (day, hasDay) := dateDay d
    if !hasWkday && wkday ≠ 0 then false
    else if !hasYear && year ≠ 0 then false
    else if !hasMonth && month ≠ 0 then false
    else if !hasDay && day ≠ 0 then false
    else if hasMonth &&
        (if hasYear then daysInMonth year month < day
         else daysInMonth 2024 month < day) then false
    else if hasYear && hasMonth && hasDay && hasWkday &&
        wkday ≠ weekdayOfDate year month day then false
    else true

/-- DateRange from the schema package: inclusive, either side possibly
zero. -/
structure DateRange where
  From : Date
  To : Date
deriving DecidableEq, Repr

/-- Meridiem marker byte of parseClockRange's parsePart: 0, 'a', or 'p'. -/
inductive Mer where
  | z
  | a
  | p
deriving DecidableEq, Repr

/-- Result of a computation that may hit a Go panic. -/
inductive POr (α : Type) where
  | panicked
  | ok (val : α)
deriving DecidableEq, Repr

/-- Go strict-mode flag of parseClockRange; the source sets it to false. -/
def clockStrict : Bool := false

/-- Repeated-duplicate-suffix stripping loop of parsePart (the lenient
handling of inputs like "11:23am am"): repeatedly trim trailing spaces and
cut the suffix while it is present. The fuel argument bounds the iteration
count; each iteration shortens the string by at least the suffix length, so
any fuel of at least the string length reproduces the Go loop exactly. -/
def stripDupSuf (fuel : Nat) (suf s : Str) : Str :=
  match fuel with
  | 0 => s
  | fuel + 1 =>
    match goCutSuf (trimEndBy (· = ' ') s) suf with
    | (x, true) => stripDupSuf fuel suf x
    | (_, false) => s

/-- Hour validation and 12-hour conversion tail of parsePart: with a
meridiem the hour must be 1..12 (pm adds 12 except for 12, am maps 12 to
0); without one it must be 0..23. -/
def clockHour (hh : Int) (m : Mer) : Option Int :=
  if m ≠ Mer.z then
    if hh < 1 || 12 < hh then none
    else if m = Mer.p then some (if hh < 12 then hh + 12 else hh)
    else some (if hh = 12 then 0 else hh)
  else if hh < 0 || 23 < hh then none
  else some hh

/-- Common tail of parsePart: length checks on the hour/minute digit
substrings, hour parsing and validation, minute parsing and validation,
and construction of the clock time. -/
def clockFinish (sh sm : Str) (m : Mer) : Option (Int × Mer) :=
  if 2 < sh.length || 2 < sm.length then none
  else
    match goParseInt10 sh with
    | none => none
    | some hh =>
      match clockHour hh m with
      | none => none
      | some hh24 =>
        match goParseInt10 sm with
        | none => none
        | some mm =>
          if mm < 0 || 59 < mm then none
          else some (MakeClockTime hh24 mm, m)

/-- Model of parsePart inside parseClockRange: special words, French
H"h"MM form, 4-digit military form, or hour[:minute] with optional
(possibly duplicated) am/pm suffix, with mdef as the default meridiem for
the suffixless form. The French and military branches leave the meridiem
byte at zero regardless of mdef, exactly as in the source. -/
def clockParsePart (s : Str) (mdef : Mer) : Option (Int × Mer) :=
  if s = "midnight".toList then some (MakeClockTime 0 0, Mer.a)
  else if s = "noon".toList then some (MakeClockTime 12 0, Mer.p)
  else
    match goCut s ['h'] with
    | (sh, sm, true) => clockFinish sh sm Mer.z
    | (_, _, false) =>
      if s.length = 4 && s.all isDigitCh then
        clockFinish (s.take 2) (s.drop 2) Mer.z
      else
        let (s1, m) :=
          match goCutSuf s "pm".toList with
          | (x, true) =>
            ((if clockStrict then x else stripDupSuf x.length "pm".toList x), Mer.p)
          | (_, false) =>
            match goCutSuf s "am".toList with
            | (x, true) =>
              ((if clockStrict then x else stripDupSuf x.length "am".toList x), Mer.a)
            | (_, false) => (s, mdef)
        match goCut s1 [':'] with
        | (sh, sm, true) => clockFinish sh sm m
        | (sh, _, false) => clockFinish sh "00".toList m

/-- Separator search of parseClockRange: the earliest of "-" or "to". -/
def clockSep (s : Str) : Str × Str × Bool :=
  stringsCutFirst s ["-".toList, "to".toList]

/-- Lenient extraneous-separator reduction loop of parseClockRange: while
the right side starts with another separator that has only whitespace on
its left remainder and something on its right remainder, consume it. Fuel
bounds the iteration count; each step strictly shortens the string, so any
fuel of at least the string length reproduces the Go loop exactly. -/
def sepReduce (fuel : Nat) (s2 : Str) : Str :=
  match fuel with
  | 0 => s2
  | fuel + 1 =>
    match clockSep s2 with
    | (_, _, false) => s2
    | (s2a, s2b, true) =>
      if trimSpace s2a ≠ [] || trimSpace s2b = [] then s2
      else sepReduce fuel s2b

/-- Preparation phase of parseClockRange: normalize (lowercased, newlines
dropped), delete all spaces, reject the empty string, find the range
separator, reduce extraneous separators, and reject open ranges. -/
def clockPrep (s : Str) : Option (Str × Str) :=
  let s := (normalizeText s false true).filter (· ≠ ' ')
  if s = [] then none
  else
    match clockSep s with
    | (_, _, false) => none
    | (s1, s2, true) =>
      let s2 := if clockStrict then s2 else sepReduce s2.length s2
      if s1 = [] || s2 = [] then none
      else some (s1, s2)

/-- Final assembly of parseClockRange from two parsed sides: reject
zero-length ranges and push the end to the next day when it precedes the
start. -/
def clockAssemble (t1 t2 : Int) : POr (Option ClockRange) :=
  if t1 = t2 then POr.ok none
  else if t2 < t1 then POr.ok (some ⟨t1, t2 + 1440⟩)
  else POr.ok (some ⟨t1, t2⟩)

/-- Model of parseClockRange from scraper/main.go, including the internal
consistency assertion: when the left side parsed without a meridiem and the
right side has one, the left side is reparsed with the right's meridiem as
default, and a resulting meridiem different from the right's hits a Go
panic, modelled by POr.panicked. -/
def parseClockRange (s : Str) : POr (Option ClockRange) :=
  match clockPrep s with
  | none => POr.ok none
  | some (s1, s2) =>
    match clockParsePart s1 Mer.z with
    | none => POr.ok none
    | some (t1, m1) =>
      match clockParsePart s2 Mer.z with
      | none => POr.ok none
      | some (t2, m2) =>
        if m1 ≠ Mer.z && m2 = Mer.z then POr.ok none
        else if m1 = Mer.z && m2 ≠ Mer.z then
          match clockParsePart s1 m2 with
          | none => POr.ok none
          | some (t1', m1') =>
            if m1' ≠ m2 then POr.panicked
            else clockAssemble t1' t2
        else clockAssemble t1 t2

/-- Month names as produced by Go's time.Month.String, lowercased. -/
def monthNames : List Str :=
  ["january".toList, "february".toList, "march".toList, "april".toList,
   "may".toList, "june".toList, "july".toList, "august".toList,
   "september".toList, "october".toList, "november".toList, "december".toList]

/-- Weekday names as produced by Go's time.Weekday.String, lowercased. -/
def weekdayNames : List Str :=
  ["sunday".toList, "monday".toList, "tuesday".toList, "wednesday".toList,
   "thursday".toList, "friday".toList, "saturday".toList]

/-- Alternation list of the cutDateRange regular expression: for each month
then each weekday, the three-letter abbreviation followed by the full name,
in source order. -/
def cutNameAlts : List Str :=
  (monthNames ++ weekdayNames).flatMap (fun n => [n.take 3, n])

/-- Separator/dash character class [ -] of the cutDateRange regular
expression. -/
def sepDashCh (c : Char) : Bool := c = ' ' || c = '-'

/-- Candidate consumed lengths for the month/weekday-name-plus-delimiter
part of the cutDateRange regular expression at the start of l: each
alternation entry that is a case-insensitive prefix of l and is followed by
end of input (consuming nothing) or a space or comma (consuming one
character), in the regular expression's alternation order. -/
def nameDelimLens (l : Str) : List Nat :=
  cutNameAlts.filterMap (fun nm =>
    if eqFold (l.take nm.length) nm && nm.length ≤ l.length then
      match l.drop nm.length with
      | [] => some nm.length
      | c :: _ => if c = ' ' || c = ',' then some (nm.length + 1) else none
    else none)

/-- Descending list n, n-1, ..., 0, the candidate order of a greedy
quantifier's backtracking. -/
def descRange (n : Nat) : List Nat :=
  (List.range (n + 1)).reverse

/-- Tail-matching step of the cutDateRange regular expression for the date
phrase: the optional modifier word ((?:[a-z]+|)\s*)?, a month or weekday
name with its delimiter, then .* (which cannot cross a newline) and the
trailing \s*$ anchor. Returns the captured phrase (extending to the end of
.*). Choices are tried in the backtracking order of a leftmost-first
engine; the capture is determined by the input alone, so any successful
choice yields the same capture. -/
def phraseMatch (cs : Str) : Option Str :=
  let letters := (cs.takeWhile (fun c =>
    ('a' ≤ c && c ≤ 'z') || ('A' ≤ c && c ≤ 'Z'))).length
  (descRange letters).findSome? (fun k =>
    let afterWord := cs.drop k
    let ws := (afterWord.takeWhile reSpace).length
    (descRange ws).findSome? (fun j =>
      let pos := k + j
      (nameDelimLens (cs.drop pos)).findSome? (fun e =>
        let rest2 := cs.drop (pos + e)
        let t := (rest2.takeWhile (· ≠ '\n')).length
        if (rest2.drop t).all reSpace then some (cs.take (pos + e + t))
        else none)))

/-- Separator-then-phrase matching of the cutDateRange regular expression
at the text following a candidate prefix: [ -]*[-][ -]* with greedy
backtracking, then the date phrase. -/
def sepPhraseTail (rest : Str) : Option Str :=
  let run := (rest.takeWhile sepDashCh).length
  (descRange run).findSome? (fun a =>
    if rest.getD a '?' = '-' then
      let rest2 := rest.drop (a + 1)
      let run2 := (rest2.takeWhile sepDashCh).length
      (descRange run2).findSome? (fun b => phraseMatch (rest2.drop b))
    else none)

/-- Prefix scan of the cutDateRange regular expression: the lazy (.+?)
prefix takes 1, 2, ... characters (never a newline), and the first prefix
length whose remainder matches separator-then-phrase wins. -/
def scanSplit (acc : Str) : Str → Option (Str × Str)
  | [] => none
  | c :: rest =>
    if c = '\n' then none
    else
      match sepPhraseTail rest with
      | some ph => some (acc ++ [c], ph)
      | none => scanSplit (acc ++ [c]) rest

/-- Model of cutDateRange from scraper/main.go: the anchored regular
expression (?i)^\s*(.+?)[ -]*[-][ -]*((modifier?)(month|weekday)($|[ ,]).*)\s*$
evaluated with leftmost-first semantics — the leading \s* is greedy, the
prefix is lazy — returning the prefix and date-phrase captures. -/
def cutDateRange (s : Str) : Option (Str × Str) :=
  let wmax := (s.takeWhile reSpace).length
  (descRange wmax).findSome? (fun w => scanSplit [] (s.drop w))

/-- Position of tok in the weekday names, matching the full name or its
three-letter abbreviation case-insensitively (the strings.EqualFold loop in
parseDateRange's parsePart). -/
def findWeekday (tok : Str) : Option Nat :=
  weekdayNames.findIdx? (fun n => eqFold tok n || eqFold tok (n.take 3))

/-- Position of tok in the month names (0-based), by full name or
three-letter abbreviation, case-insensitively. -/
def findMonth (tok : Str) : Option Nat :=
  monthNames.findIdx? (fun n => eqFold tok n || eqFold tok (n.take 3))

/-- Token step of parseDateRange's parsePart: trim the remainder, cut at
the earliest of "," or " ", and trim the token. -/
def dateTok (rest : Str) : Str × Str :=
  let rest := trimSpace rest
  let (s, rest', _) := stringsCutFirst rest [",".toList, " ".toList]
  (trimSpace s, rest')

/-- Day-and-onward steps of parseDateRange's parsePart: an integer day
1..32, an optional year 2001..3999 when anything remains, a trailing-junk
check, and validation of the packed date. -/
def looseDateTail (month : Int) (wkday : Int) (rest : Str) : Option Date :=
  let (s, rest1) := dateTok rest
  match goParseInt10 s with
  | none => none
  | some v =>
    if v < 1 || 32 < v then none
    else
      let day := v
      let yearRest : Option (Int × Str) :=
        if rest1 ≠ [] then
          match dateTok rest1 with
          | (s2, rest2) =>
            match goParseInt10 s2 with
            | none => none
            | some y => if 2000 < y && y < 4000 then some (y, rest2) else none
        else some (0, rest1)
      match yearRest with
      | none => none
      | some (year, rest2) =>
        if rest2 ≠ [] then none
        else
          let d := MakeDate year month day wkday
          if Date.IsValid d then some d else none

/-- Model of parsePart inside parseDateRange (the loose date parser): a
weekday or month first, a month after a weekday, then the day, optional
year, and validity check. -/
def parseLoosePart (s : Str) : Option Date :=
  let (tok, rest) := dateTok s
  match findWeekday tok with
  | some w =>
    let (tok2, rest2) := dateTok rest
    (match findMonth tok2 with
     | some mi => looseDateTail ((mi : Int) + 1) (w : Int) rest2
     | none => none)
  | none =>
    match findMonth tok with
    | some mi => looseDateTail ((mi : Int) + 1) (-1) rest
    | none => none

/-- Right-hand-side handling of parseDateRange for an active "to" or "and"
split: an "and" range first rejects a left date with a year; a pure
integer 1..32 reuses the left's year and month (with adjacency checking
for "and"); any other right side fails for "and" and is parsed as a loose
date for "to". -/
def parseDateRight (isAnd : Bool) (left : Date) (rightStr : Str) : Option Date :=
  if isAnd && (dateYear left).2 then none
  else
    match goParseInt10 rightStr with
    | some day =>
      if 1 ≤ day && day ≤ 32 then
        let year := if (dateYear left).2 then (dateYear left).1 else 0
        let month := if (dateMonth left).2 then (dateMonth left).1 else 0
        if isAnd then
          if !(dateDay left).2 then none
          else if (dateDay left).1 + 1 ≠ day then none
          else some (MakeDate year month day (-1))
        else some (MakeDate year month day (-1))
      else if isAnd then none
      else parseLoosePart rightStr
    | none =>
      if isAnd then none
      else parseLoosePart rightStr

/-- Model of parseDateRange from scraper/main.go: normalize, detect a
leading "starting "/"until " modifier, split on the first " to " (else the
first " and "), reject a modifier combined with a split, parse the left
side as a loose date, handle the right side, and assemble the range. -/
def parseDateRange (s : Str) : Option DateRange :=
  let s := normalizeText s false true
  let (s, starting) := goCutPre s "starting ".toList
  let (s, until') := if starting then (s, false) else goCutPre s "until ".toList
  let (leftStr, rightStr, isTo) := goCut s " to ".toList
  let (leftStr, rightStr, isAnd) :=
    if isTo then (leftStr, rightStr, false) else goCut s " and ".toList
  if (isAnd || isTo) && (starting || until') then none
  else
    match parseLoosePart leftStr with
    | none => none
    | some left =>
      if isTo || isAnd then
        match parseDateRight isAnd left rightStr with
        | none => none
        | some right => some ⟨left, right⟩
      else if starting then some ⟨left, 0⟩
      else if until' then some ⟨0, left⟩
      else some ⟨left, left⟩

/-- Fuel-driven core of strings.ReplaceAll: replace all non-overlapping
leftmost occurrences of a non-empty pattern. Each step consumes at least
one character, so any fuel of at least the string length is exact. -/
def replaceAllFuel (fuel : Nat) (s pat rep : Str) : Str :=
  match fuel with
  | 0 => s
  | fuel + 1 =>
    match s with
    | [] => []
    | c :: rest =>
      if pat ≠ [] ∧ pat.isPrefixOf (c :: rest) then
        rep ++ replaceAllFuel fuel ((c :: rest).drop pat.length) pat rep
      else c :: replaceAllFuel fuel rest pat rep

/-- Model of strings.ReplaceAll for a non-empty pattern. -/
def replaceAll (s pat rep : Str) : Str := replaceAllFuel s.length s pat rep

/-- Model of strings.Trim with a fixed cutset. -/
def trimBoth (cutset : Str) (l : Str) : Str :=
  trimEndBy (cutset.contains ·) (l.dropWhile (cutset.contains ·))

/-- Position of the last occurrence of a character (strings.LastIndex with
a single-character needle). -/
def lastIdxCh (c : Char) (l : Str) : Option Nat :=
  match idxOfSub [c] l.reverse with
  | some i => some (l.length - 1 - i)
  | none => none

/-- Recognized reservation phrases of cutReservationRequirement. -/
def reservationPhrases : List Str :=
  ["reservations not required".toList, "reservation not required".toList,
   "reservations required".toList, "reservation required".toList,
   "requires reservations".toList, "requires reservation".toList]

/-- Model of cutReservationRequirement from scraper/main.go, restricted to
the cleaned string (the flags are unused by cleanActivityName): if the text
from the last '*' onward, trimmed of "*. ()" characters and normalized
lowercased, is one of the recognized phrases, drop everything from '*'
onward and trim trailing space. -/
def cutReservationRequirement (activity : Str) : Str :=
  match lastIdxCh '*' activity with
  | none => activity
  | some i =>
    let key := normalizeText (trimBoth "*. ()".toList (activity.drop i)) false true
    if reservationPhrases.contains key then trimSpace (activity.take i)
    else activity

/-- Characters of the regexp class [\s-]. -/
def spaceDashCh (c : Char) : Bool := reSpace c || c = '-'

/-- Characters of the regexp class [\s(-]. -/
def spaceParenDashCh (c : Char) : Bool := reSpace c || c = '(' || c = '-'

/-- Submatch of the age-minimum regexp: the whole match length together
with the pre-separator, digit, and post-separator captures. -/
structure AgeM where
  len : Nat
  pre : Str
  digits : Str
  post : Str
deriving DecidableEq, Repr

/-- Continuation of the age regexp after its pre-separator alternative:
\(? (?:ages\s+)? ([0-9]+) (?:\s*\+) \)? ([\s(-]+|$), with each greedy or
optional piece tried longest-first/present-first as by a leftmost-first
engine. Returns the consumed length from rest together with the digit and
post-separator captures. -/
def ageAfterPre (rest : Str) : Option (Nat × Str × Str) :=
  let parenChoices := if rest.head? = some '(' then [1, 0] else [0]
  parenChoices.findSome? (fun po =>
    let r1 := rest.drop po
    let agesChoices :=
      if ("ages".toList).isPrefixOf r1 then
        let ws := ((r1.drop 4).takeWhile reSpace).length
        ((descRange ws).filter (0 < ·)).map (4 + ·) ++ [0]
      else [0]
    agesChoices.findSome? (fun ag =>
      let r2 := r1.drop ag
      let digits := r2.takeWhile isDigitCh
      if digits = [] then none
      else
        let r3 := r2.drop digits.length
        let ws2 := (r3.takeWhile reSpace).length
        if r3.getD ws2 '?' = '+' then
          let r4 := r3.drop (ws2 + 1)
          let parenChoices2 := if r4.head? = some ')' then [1, 0] else [0]
          parenChoices2.findSome? (fun pc =>
            let r5 := r4.drop pc
            let post := r5.takeWhile spaceParenDashCh
            if post ≠ [] then
              some (po + ag + digits.length + ws2 + 1 + pc + post.length, digits, post)
            else if r5 = [] then
              some (po + ag + digits.length + ws2 + 1 + pc, digits, [])
            else none)
        else none))

/-- Single-position match attempt of the age-minimum regexp
(^|[\s-]+)\(?(?:ages\s+)?([0-9]+)(?:\s*\+)\)?([\s(-]+|$): the ^ alternative
applies only at the start of the text, then the [\s-]+ separator is tried
greedily. -/
def ageMatchAt (s : Str) (atStart : Bool) : Option AgeM :=
  let run := (s.takeWhile spaceDashCh).length
  let preChoices :=
    (if atStart then [0] else []) ++ ((descRange run).filter (0 < ·))
  preChoices.findSome? (fun p =>
    match ageAfterPre (s.drop p) with
    | some (n, digits, post) =>
      some ⟨p + n, s.take p, digits, post⟩
    | none => none)

/-- Scan of ageRangeRe.FindAllStringSubmatch: leftmost matches collected
one after another, resuming after each match; fuel bounds the scan and any
fuel of at least the string length is sufficient. -/
def ageFindAllFrom (fuel : Nat) (s : Str) (i : Nat) : List (Nat × AgeM) :=
  match fuel with
  | 0 => []
  | fuel + 1 =>
    if s.length ≤ i then []
    else
      match ageMatchAt (s.drop i) (i = 0) with
      | some m => (i, m) :: ageFindAllFrom fuel s (i + m.len)
      | none => ageFindAllFrom fuel s (i + 1)

/-- All matches of the age-minimum regexp in s, with their positions. -/
def ageFindAll (s : Str) : List (Nat × AgeM) :=
  ageFindAllFrom (s.length + 1) s 0

/-- Model of cutAgeMin from scraper/main.go: if the age regexp matches
exactly once and the digits parse (base 0, bit size 10) to an age strictly
between 0 and 150, remove the matched span (replacing every occurrence of
the matched text by the collapsed separator) and return the age. -/
def cutAgeMin (activity : Str) : Str × Int × Bool :=
  match ageFindAll activity with
  | [(i, m)] =>
    let whole := (activity.drop i).take m.len
    (match goParseIntB0 m.digits with
     | some age =>
       if 0 < age && age < 150 then
         let sep := if m.pre ≠ [] then m.pre else m.post
         let sep :=
           if sep ≠ [] && trimSpace sep = [] then
             (if trimSpace m.post = [] then [' '] else m.post)
           else sep
         (trimSpace (replaceAll activity whole sep), age, true)
       else (activity, -1, false)
     | none => (activity, -1, false))
  | _ => (activity, -1, false)

/-- Length consumed by reduced(?:\s* capacity)? at the start of l, given
that "reduced" is a case-insensitive prefix: the optional group matches
exactly when one or more \s characters separate it from a following
"capacity" (the group's literal includes the space before "capacity"). -/
def reducedLen (l : Str) : Nat :=
  let r := l.drop 7
  let w := (r.takeWhile reSpace).length
  if 0 < w && eqFold ((r.drop w).take 8) "capacity".toList then 7 + w + 8
  else 7

/-- End-anchored alternative of reducedCapacityRe: whether the text from
position j onward is exactly reduced(?:\s* capacity)?$. -/
def reducedToEnd (l : Str) : Bool :=
  eqFold (l.take 7) "reduced".toList && 7 ≤ l.length &&
  (l.length = reducedLen l)

/-- Model of cutReducedCapacity from scraper/main.go
(reducedCapacityRe.ReplaceAllLiteralString with the empty string): the
start-anchored alternative ^reduced(?:\s* capacity)?[\s-]* is removed
first when it matches; then the leftmost end-anchored alternative
[\s-]*reduced(?:\s* capacity)?$ is removed from the remainder. Returns the
result and whether anything changed. -/
def cutReducedCapacity (activity : Str) : Str × Bool :=
  let a1 :=
    if eqFold (activity.take 7) "reduced".toList && 7 ≤ activity.length then
      let n := reducedLen activity
      let r := activity.drop n
      r.drop ((r.takeWhile spaceDashCh).length)
    else activity
  let starts := (List.range (a1.length + 1)).filter (fun i =>
    let l := a1.drop i
    let run := (l.takeWhile spaceDashCh).length
    reducedToEnd (l.drop run))
  let a2 :=
    match starts.head? with
    | some i => a1.take i
    | none => a1
  (a2, a2 ≠ activity)

/-- Ordered replacement pairs of activityReplacer. -/
def replacerPairs : List (Str × Str) :=
  [("swimming".toList, "swim".toList),
   ("aqualite".toList, "aqua lite".toList),
   ("skating".toList, "skate".toList),
   ("pick up ".toList, "pick-up ".toList),
   ("pickup ".toList, "pick-up ".toList),
   ("sport ".toList, "sports ".toList),
   (" - courts".toList, " court".toList),
   (" - court".toList, " court".toList),
   ([ch 0xae], [])]

/-- Fuel-driven model of strings.Replacer.Replace for activityReplacer:
scan left to right; at each position substitute the first pattern (in
argument order) that matches, skip past its replacement, and otherwise
emit the character unchanged. Every pattern is non-empty, so each step
consumes at least one character and any fuel of at least the string length
is exact. -/
def replacerRunFuel (fuel : Nat) : Str → Str
  | [] => []
  | c :: rest =>
    match fuel with
    | 0 => c :: rest
    | fuel + 1 =>
      match replacerPairs.find? (fun p => p.1.isPrefixOf (c :: rest)) with
      | some (pat, rep) => rep ++ replacerRunFuel fuel ((c :: rest).drop pat.length)
      | none => c :: replacerRunFuel fuel rest

/-- Model of strings.Replacer.Replace for activityReplacer. -/
def replacerRun (s : Str) : Str := replacerRunFuel s.length s

/-- Decimal digit string of a natural number (strconv.Itoa on the
non-negative ages produced by cutAgeMin); fuel-driven with any fuel of at
least the digit count sufficient. -/
def natDigitsAux (fuel n : Nat) : Str :=
  match fuel with
  | 0 => []
  | fuel + 1 =>
    if n < 10 then [digCh n]
    else natDigitsAux fuel (n / 10) ++ [digCh n]

/-- Decimal rendering of a non-negative integer. -/
def intToStr (n : Int) : Str := natDigitsAux (n.toNat + 1) n.toNat

/-- Model of cleanActivityName from scraper/main.go: normalize lowercased,
strip a recognized reservation-requirement clause, extract the age
minimum, strip reduced-capacity markers, apply the vocabulary replacer,
re-append the age as " N+" and the reduced-capacity marker, and normalize
once more without lowercasing. -/
def cleanActivityName (s : Str) : Str :=
  let a := normalizeText s false true
  let a := cutReservationRequirement a
  let (a, age, hasAge) := cutAgeMin a
  let (a, reduced) := cutReducedCapacity a
  let a := replacerRun a
  let a :=
    if hasAge then trimEndBy (fun c => c = '-' || c = ' ') a ++ [' '] ++ intToStr age ++ ['+']
    else a
  let a := if reduced then a ++ " - reduced capacity".toList else a
  normalizeText a false false

/-- Transcription of the specification's shape requirement for the start of
a date phrase, used to compare cutDateRange against the claimed behaviour:
an optional lowercase modifier word, then a recognized month or weekday
name (full or three-letter form) followed by a space, a comma, or the end
of the string. -/
def specNameHead (l : Str) : Bool :=
  (monthNames ++ weekdayNames).any (fun n =>
    [n, n.take 3].any (fun nm =>
      nm.isPrefixOf l &&
      (decide (l.length = nm.length) || l.getD nm.length '?' = ' ' ||
       l.getD nm.length '?' = ',')))

/-- Transcription of the specification's date-phrase shape: the phrase
begins with an optional lowercase modifier word (separated by spaces) and
then a recognized name with its delimiter. -/
def specPhraseHead (phrase : Str) : Bool :=
  specNameHead phrase ||
  (let w := (phrase.takeWhile (fun c => 'a' ≤ c && c ≤ 'z')).length
   decide (0 < w) && specNameHead ((phrase.drop w).dropWhile (· = ' ')))

/-- Transcription of the specification's candidate prefix/date-phrase split
of a string: a non-empty prefix s.take i, a separator s.drop i |>.take
(j - i) consisting of whitespace/dashes and containing at least one
literal dash, and a phrase s.drop j of the required shape. -/
def specCandidateSplit (s : Str) (i j : Nat) : Bool :=
  decide (1 ≤ i) && decide (i < j) && decide (j ≤ s.length) &&
  (let sep := (s.drop i).take (j - i)
   sep.all sepDashCh && sep.contains '-') &&
  specPhraseHead (s.drop j)

/-- ASCII code points. -/
def asciiCh (c : Char) : Bool := c.toNat < 128

/-- Characters that can appear in the output of normalizeText on ASCII
input: a space, a newline when newlines are kept, or a printable
non-space ASCII character that is not uppercase when lowercasing was
requested. The per-character mapping is the identity on these. -/
def goodCh (nl lc : Bool) (c : Char) : Bool :=
  c = ' ' || (nl && c = '\n') ||
  (0x21 ≤ c.toNat && c.toNat ≤ 0x7e && !(lc && 'A' ≤ c && c ≤ 'Z'))

/-- No two adjacent ASCII spaces. -/
abbrev noAdjSp (l : Str) : Prop :=
  List.Chain' (fun a b => ¬(a = ' ' ∧ b = ' ')) l

set_option maxRecDepth 100000

/-- Claim C1: parse_clock_range never reaches its internal consistency
panic. The claim is right about the intended behaviour but the code
violates it: on "5h12-3pm" the left side parses as a French time with
meridiem byte zero, the right side carries pm, and the reparse of the left
side with pm as default again returns a zero meridiem because the French
branch ignores the default, so the assertion panics. This theorem
evaluates the model at that failing input. -/
theorem C1_parse_clock_range_panics :
    parseClockRange ("5h12-3pm".toList) = POr.panicked := by decide

/-- Claim C2: every successful parse_date_range result has only valid
non-zero sides. The claim matches the intent recorded in the repository's
test invariants, but the code violates it: a pure-integer right side of a
"to" or "and" split is only range-checked to 1..32 and never validity
checked, so "august 30 to 32" succeeds with a To side whose day digit
group is 32 and which fails Date validity (and similarly "august 31 and
32" via the adjacency rule). -/
theorem C2_invalid_to_side :
    parseDateRange ("august 30 to 32".toList) = some ⟨8300, 8320⟩ ∧
    parseDateRange ("august 31 and 32".toList) = some ⟨8310, 8320⟩ ∧
    Date.IsValid 8320 = false ∧ (8320 : Date) ≠ 0 ∧ dateDay 8320 = (32, false) := by
  refine ⟨by decide, by decide, by decide, by decide, by decide⟩

/-- Claim C3 as stated is false: parse_clock_range rejects a meridiem-ful
left side against a meridiem-less right side even when the right side is a
self-sufficient military form, so "5pm - 1800" fails rather than parsing
successfully. -/
theorem C3_military_right_fails :
    parseClockRange ("5pm - 1800".toList) = POr.ok none := by decide

/-- Claim C3 amended: parse_clock_range fails whenever the left side
parsed with an explicit meridiem and the right side parsed without one,
including when the right side is a self-sufficient military or French
form (whose parse leaves the meridiem byte at zero). -/
theorem C3_left_meridiem_unmarked_right_fails (s s1 s2 : Str) (t1 t2 : Int)
    (m1 : Mer) (hprep : clockPrep s = some (s1, s2))
    (h1 : clockParsePart s1 Mer.z = some (t1, m1)) (hm : m1 ≠ Mer.z)
    (h2 : clockParsePart s2 Mer.z = some (t2, Mer.z)) :
    parseClockRange s = POr.ok none := by
  unfold parseClockRange
  simp only [hprep, h1, h2]
  simp [hm]

/-- Witness for C3's amended theorem at the concrete input "5pm - 1800":
the preparation splits it into "5pm" and "1800", the sides parse with pm
and zero meridiems, and the parse fails. -/
theorem C3_witness :
    clockPrep ("5pm - 1800".toList) = some ("5pm".toList, "1800".toList) ∧
    clockParsePart ("5pm".toList) Mer.z = some (1020, Mer.p) ∧
    clockParsePart ("1800".toList) Mer.z = some (1080, Mer.z) ∧
    parseClockRange ("5pm - 1800".toList) = POr.ok none :=
  ⟨by decide, by decide, by decide,
   C3_left_meridiem_unmarked_right_fails ("5pm - 1800".toList) ("5pm".toList)
     ("1800".toList) 1020 1080 Mer.p (by decide) (by decide) (by decide) (by decide)⟩

/-- Claim C5: MakeDate packs every supplied in-range component, including a
weekday supplied without a day. The claim matches the type's documentation
(any combination of components, weekday unspecified only when negative),
but the source guards the weekday addend with day > 0, so a weekday
without a day is silently dropped: MakeDate for (year 0, month 0, day 0,
weekday Sunday) returns 0 instead of the packed 1, and likewise with a
month present, while the formula does hold once a day is supplied. -/
theorem C5_weekday_dropped_without_day :
    MakeDate 0 0 0 0 = 0 ∧ (0 : Int) * 100000 + 0 * 1000 + 0 * 10 + (0 + 1) = 1 ∧
    MakeDate 0 8 0 0 = 8000 ∧ (0 : Int) * 100000 + 8 * 1000 + 0 * 10 + (0 + 1) = 8001 ∧
    MakeDate 2025 10 6 1 = 202510062 := by
  refine ⟨by decide, by decide, by decide, by decide, by decide⟩

/-- Claim C6 as stated is false: "200+ bingo" contains exactly one
age-minimum token, yet clean_activity_name leaves the string alone (no
extraction and no appended suffix) because the parsed age 200 is not
strictly below 150. -/
theorem C6_single_token_out_of_range :
    (ageFindAll (normalizeText ("200+ bingo".toList) false true)).length = 1 ∧
    cleanActivityName ("200+ bingo".toList) = ("200+ bingo").toList ∧
    ¬ ("200+".toList <:+ cleanActivityName ("200+ bingo".toList)) := by
  refine ⟨by decide, by decide, by decide⟩

/-- Claim C6 amended: the age stage extracts if and only if the age
regexp matches exactly once and the digits parse under Go's base-0 rules
to a value strictly between 0 and 150; otherwise the string is left
alone. The concrete instances show clean_activity_name extracting and
appending for an in-range single token and leaving an ambiguous
two-token name alone. -/
theorem C6_age_extraction_condition :
    (∀ a : Str, (ageFindAll a).length ≠ 1 → cutAgeMin a = (a, -1, false)) ∧
    (∀ a s n, cutAgeMin a = (s, n, true) →
      (ageFindAll a).length = 1 ∧
      ∃ i m, ageFindAll a = [(i, m)] ∧ goParseIntB0 m.digits = some n ∧
        0 < n ∧ n < 150) ∧
    cleanActivityName ("18+ bingo".toList) = ("bingo 18+").toList ∧
    cleanActivityName ("example 15+ test 16+".toList) =
      ("example 15+ test 16+").toList := by
  refine ⟨?_, ?_, by decide, by decide⟩
  · intro a h
    rcases hl : ageFindAll a with _ | ⟨⟨i, m⟩, _ | ⟨y, t⟩⟩
    · unfold cutAgeMin; rw [hl]
    · rw [hl] at h; simp at h
    · unfold cutAgeMin; rw [hl]
  · intro a s n h
    unfold cutAgeMin at h
    rcases hl : ageFindAll a with _ | ⟨⟨i, m⟩, _ | ⟨y, t⟩⟩ <;> rw [hl] at h
    · simp at h
    · simp only at h
      rcases hp : goParseIntB0 m.digits with - | age <;> rw [hp] at h
      · simp at h
      · simp only at h
        by_cases hr : 0 < age ∧ age < 150
        · rw [if_pos (by simpa using hr)] at h
          simp only [Prod.mk.injEq] at h
          refine ⟨by simp, i, m, rfl, ?_, ?_, ?_⟩
          · rw [← h.2.1]; exact hp
          · rw [← h.2.1]; exact hr.1
          · rw [← h.2.1]; exact hr.2
        · rw [if_neg (by simpa using hr)] at h
          simp at h
    · simp at h

/-- Witness for C6's amended theorem: a two-token name is left alone by
the age stage, by the theorem's first conjunct at a concrete input with
two regexp matches. -/
theorem C6_witness :
    cutAgeMin ("x 20+ y 30+".toList) = (("x 20+ y 30+").toList, -1, false) :=
  C6_age_extraction_condition.1 ("x 20+ y 30+".toList) (by decide)

/-- Claim C8: the "and" range adjacency rule. The three concrete
behaviours hold, and in general an "and" split succeeds only when the
left date carries no year, the right segment parses as a pure integer
1..32 equal to the left day plus one, and the right date reuses the
left's year and month with no weekday. -/
theorem C8_and_range_adjacency :
    parseDateRange ("August 30 and 31".toList) = some ⟨8300, 8310⟩ ∧
    parseDateRange ("August 30 and 32".toList) = none ∧
    parseDateRange ("August 30 and 29".toList) = none ∧
    (∀ (left : Date) (rstr : Str) (d : Date),
      parseDateRight true left rstr = some d →
        (dateYear left).2 = false ∧
        ∃ n : Int, goParseInt10 rstr = some n ∧ 1 ≤ n ∧ n ≤ 32 ∧
          (dateDay left).2 = true ∧ (dateDay left).1 + 1 = n ∧
          d = MakeDate (if (dateYear left).2 then (dateYear left).1 else 0)
                (if (dateMonth left).2 then (dateMonth left).1 else 0) n (-1)) := by
  refine ⟨by decide, by decide, by decide, ?_⟩
  intro left rstr d h
  unfold parseDateRight at h
  by_cases hy : (dateYear left).2
  · rw [if_pos (by simp [hy])] at h; simp at h
  · rw [if_neg (by simp [hy])] at h
    refine ⟨by simpa using hy, ?_⟩
    rcases hp : goParseInt10 rstr with - | day <;> rw [hp] at h
    · simp at h
    · simp only at h
      by_cases hrange : 1 ≤ day ∧ day ≤ 32
      · rw [if_pos (by simp [hrange.1, hrange.2])] at h
        simp only [reduceIte] at h
        split at h
        · simp at h
        · split at h
          · simp at h
          · rename_i hd hadj
            simp only [Option.some.injEq] at h
            refine ⟨day, rfl, hrange.1, hrange.2, by simpa using hd,
              by simpa using hadj, by rw [if_neg hy]; exact h.symm⟩
      · rw [if_neg (by simp; omega)] at h
        simp at h

/-- Witness for C8's general conjunct at the concrete split of "August
30 and 31": left date August 30, right segment "31". -/
theorem C8_witness :
    (dateYear 8300).2 = false ∧
    ∃ n : Int, goParseInt10 ("31".toList) = some n ∧ 1 ≤ n ∧ n ≤ 32 ∧
      (dateDay 8300).2 = true ∧ (dateDay 8300).1 + 1 = n ∧
      (8310 : Date) = MakeDate (if (dateYear 8300).2 then (dateYear 8300).1 else 0)
        (if (dateMonth 8300).2 then (dateMonth 8300).1 else 0) n (-1) :=
  C8_and_range_adjacency.2.2.2 8300 ("31".toList) 8310 (by decide)

/-- Claim C10: ClockRange.Overlaps validity-checks the receiver only, so
it can return true for an invalid argument: it equals the receiver's
validity conjoined with the closed-interval intersection test, and the
valid range [60,120] overlaps the invalid range (90,70) whose start
exceeds its end. -/
theorem C10_overlaps_receiver_only :
    (∀ r o : ClockRange,
      ClockRange.Overlaps r o =
        (ClockRange.IsValid r && decide (r.Start ≤ o.End) && decide (o.Start ≤ r.End))) ∧
    ClockRange.IsValid ⟨60, 120⟩ = true ∧
    ClockRange.IsValid ⟨90, 70⟩ = false ∧
    ClockRange.Overlaps ⟨60, 120⟩ ⟨90, 70⟩ = true :=
  ⟨fun _ _ => rfl, by decide, by decide, by decide⟩

/-- Claim C4 as stated is false: in "pool - august 2 - august 3" both
split points satisfy the specification's shape requirements, the split at
15/18 is the latest one, yet cutDateRange returns the earliest split with
the textually longest date phrase "august 2 - august 3", not the latest
split whose phrase would be "august 3". -/
theorem C4_latest_split_refuted :
    specCandidateSplit ("pool - august 2 - august 3".toList) 4 7 = true ∧
    specCandidateSplit ("pool - august 2 - august 3".toList) 15 18 = true ∧
    ((List.range 27).all (fun j => decide (j ≤ 18) ||
      (List.range (j + 1)).all (fun i =>
        !specCandidateSplit ("pool - august 2 - august 3".toList) i j))) = true ∧
    cutDateRange ("pool - august 2 - august 3".toList) =
      some (("pool").toList, ("august 2 - august 3").toList) ∧
    ("august 2 - august 3").toList ≠ ("pool - august 2 - august 3".toList).drop 18 := by
  refine ⟨by decide, by decide, by decide, by decide, by decide⟩

/-- Characterization of the prefix scan: a successful split uses the
smallest prefix length whose remainder matches separator-then-phrase, the
prefix never contains a newline, and no shorter non-empty prefix admits a
match. -/
theorem scanSplit_spec (s : Str) : ∀ acc pre ph : Str,
    scanSplit acc s = some (pre, ph) →
    ∃ k, 1 ≤ k ∧ k ≤ s.length ∧ pre = acc ++ s.take k ∧ '\n' ∉ s.take k ∧
      sepPhraseTail (s.drop k) = some ph ∧
      ∀ j, 1 ≤ j → j < k → sepPhraseTail (s.drop j) = none := by
  induction s with
  | nil => intro acc pre ph h; simp [scanSplit] at h
  | cons c rest ih =>
    intro acc pre ph h
    unfold scanSplit at h
    by_cases hc : c = '\n'
    · rw [if_pos hc] at h; simp at h
    · rw [if_neg hc] at h
      rcases ht : sepPhraseTail rest with - | ph' <;> rw [ht] at h
      · obtain ⟨k, hk1, hkle, hpre, hnl, htail, hmin⟩ := ih (acc ++ [c]) pre ph h
        refine ⟨k + 1, by omega, by simpa using hkle, ?_, ?_, ?_, ?_⟩
        · simpa [List.take_succ_cons] using hpre
        · intro hmem
          rcases List.mem_cons.mp (by simpa [List.take_succ_cons] using hmem) with h1 | h2
          · exact hc h1.symm
          · exact hnl h2
        · simpa using htail
        · intro j hj1 hjk
          rcases Nat.lt_or_ge j 2 with hj2 | hj2
          · have hj : j = 1 := by omega
            subst hj
            simpa using ht
          · have hdrop : (c :: rest).drop j = rest.drop (j - 1) := by
              rcases j with - | j'
              · omega
              · simp
            rw [hdrop]
            exact hmin (j - 1) (by omega) (by omega)
      · simp only [Option.some.injEq, Prod.mk.injEq] at h
        refine ⟨1, le_refl 1, by simp, ?_, ?_, ?_, ?_⟩
        · simp [← h.1]
        · intro hmem
          simp only [List.take_succ_cons, List.take_zero, List.mem_singleton] at hmem
          exact hc hmem.symm
        · rw [List.drop_succ_cons, List.drop_zero, ht, h.2]
        · intro j hj1 hjk; omega

/-- Claim C4 amended: on input with no leading regexp whitespace, when
cutDateRange succeeds it returns the EARLIEST valid split point — the
textually longest date phrase (lazy prefix): the returned prefix is the
shortest non-empty newline-free prefix whose remainder matches the
separator-then-phrase part of the pattern, and no shorter split point
matches. Callers rely on this to avoid leaving a fragment of a date
behind in the prefix; the specification has the direction backwards. -/
theorem C4_earliest_split (s pre ph : Str) (hws : s.takeWhile reSpace = [])
    (hc : cutDateRange s = some (pre, ph)) :
    1 ≤ pre.length ∧ pre = s.take pre.length ∧ '\n' ∉ pre ∧
    sepPhraseTail (s.drop pre.length) = some ph ∧
    ∀ j, 1 ≤ j → j < pre.length → sepPhraseTail (s.drop j) = none := by
  unfold cutDateRange at hc
  rw [hws] at hc
  have h0 : scanSplit [] s = some (pre, ph) := by
    rcases hss : scanSplit [] s with - | p <;>
      · simp only [descRange, List.findSome?, hss, List.range_succ, List.range_zero,
          List.reverse_cons, List.reverse_nil, List.nil_append, List.drop_zero] at hc
        exact hc
  obtain ⟨k, hk1, hkle, hpre, hnl, htail, hmin⟩ := scanSplit_spec s [] pre ph h0
  have hpre' : pre = s.take k := by simpa using hpre
  have hlen : pre.length = k := by
    rw [hpre', List.length_take]
    omega
  refine ⟨by omega, by rw [hlen, hpre'], by rw [hpre']; exact hnl, ?_, ?_⟩
  · rw [hlen]; exact htail
  · intro j hj1 hjk
    exact hmin j hj1 (by omega)

/-- Witness for C4's amended theorem at "pool - august 2 - august 3": the
returned prefix "pool" is the earliest split point and no shorter one
matches. -/
theorem C4_witness :
    1 ≤ (("pool").toList).length ∧
    ("pool").toList =
      (("pool - august 2 - august 3").toList).take (("pool").toList).length ∧
    '\n' ∉ ("pool").toList ∧
    sepPhraseTail ((("pool - august 2 - august 3").toList).drop
      (("pool").toList).length) = some (("august 2 - august 3").toList) ∧
    ∀ j, 1 ≤ j → j < (("pool").toList).length →
      sepPhraseTail ((("pool - august 2 - august 3").toList).drop j) = none :=
  C4_earliest_split (("pool - august 2 - august 3").toList) (("pool").toList)
    (("august 2 - august 3").toList) (by decide) (by decide)

/-- Bounds of the hour validation: a successful 12-or-24-hour check yields
an hour in 0..23. -/
theorem clockHour_bounds (hh h' : Int) (m : Mer) (h : clockHour hh m = some h') :
    0 ≤ h' ∧ h' ≤ 23 := by
  unfold clockHour at h
  split at h
  · split at h
    · exact absurd h (by simp)
    · rename_i hr
      simp only [Bool.or_eq_true, decide_eq_true_eq, not_or] at hr
      split at h <;>
        (simp only [Option.some.injEq] at h; rw [← h]; split <;> omega)
  · split at h
    · exact absurd h (by simp)
    · rename_i hr
      simp only [Bool.or_eq_true, decide_eq_true_eq, not_or] at hr
      simp only [Option.some.injEq] at h
      omega

/-- Bounds of the common parsing tail: a successful parse yields a clock
time in 0..1439. -/
theorem clockFinish_bounds (sh sm : Str) (m : Mer) (t : Int) (m' : Mer)
    (h : clockFinish sh sm m = some (t, m')) : 0 ≤ t ∧ t ≤ 1439 := by
  unfold clockFinish at h
  split at h
  · exact absurd h (by simp)
  · split at h
    · exact absurd h (by simp)
    · split at h
      · exact absurd h (by simp)
      · split at h
        · exact absurd h (by simp)
        · split at h
          · exact absurd h (by simp)
          · rename_i hlen xsh hh heqSh xch hh24 heqCh xsm mm heqSm hmm
            simp only [Bool.or_eq_true, decide_eq_true_eq, not_or] at hmm
            simp only [Option.some.injEq, Prod.mk.injEq] at h
            obtain ⟨hb1, hb2⟩ := clockHour_bounds _ _ _ heqCh
            rw [← h.1]
            unfold MakeClockTime
            split
            · rename_i hneg
              simp only [Bool.or_eq_true, decide_eq_true_eq] at hneg
              omega
            · omega

/-- Bounds of parsePart: every successfully parsed side lies in 0..1439. -/
theorem clockParsePart_bounds (s : Str) (mdef : Mer) (t : Int) (m : Mer)
    (h : clockParsePart s mdef = some (t, m)) : 0 ≤ t ∧ t ≤ 1439 := by
  unfold clockParsePart at h
  split at h
  · simp only [Option.some.injEq, Prod.mk.injEq] at h
    rw [← h.1]
    constructor <;> decide
  · split at h
    · simp only [Option.some.injEq, Prod.mk.injEq] at h
      rw [← h.1]
      constructor <;> decide
    · split at h
      · exact clockFinish_bounds _ _ _ _ _ h
      · split at h
        · exact clockFinish_bounds _ _ _ _ _ h
        · split at h
          all_goals split at h
          all_goals exact clockFinish_bounds _ _ _ _ _ h

/-- Bounds of the final assembly: a successful range has a start in the
first day and an end before the close of the second. -/
theorem clockAssemble_bounds (t1 t2 : Int) (r : ClockRange)
    (h1 : 0 ≤ t1 ∧ t1 ≤ 1439) (h2 : 0 ≤ t2 ∧ t2 ≤ 1439)
    (h : clockAssemble t1 t2 = POr.ok (some r)) :
    0 ≤ r.Start ∧ r.Start < 1440 ∧ r.Start < r.End ∧ r.End < 2880 := by
  unfold clockAssemble at h
  split at h
  · exact absurd h (by simp)
  · rename_i hne
    split at h
    · rename_i hcmp
      simp only [POr.ok.injEq, Option.some.injEq] at h
      have hse : r.Start = t1 ∧ r.End = t2 + 1440 := by rw [← h]; exact ⟨rfl, rfl⟩
      omega
    · rename_i hcmp
      simp only [POr.ok.injEq, Option.some.injEq] at h
      have hse : r.Start = t1 ∧ r.End = t2 := by rw [← h]; exact ⟨rfl, rfl⟩
      omega

/-- Every digit character produced by digCh is one of the ten ASCII
digits. -/
theorem digCh_mem (n : Nat) : digCh n ∈ ("0123456789").toList := by
  have h10 : n % 10 < 10 := Nat.mod_lt _ (by norm_num)
  have hall : ∀ k, k < 10 → Char.ofNat (48 + k) ∈ ("0123456789").toList := by decide
  exact hall (n % 10) h10

/-- Shape of the 24-hour rendering of a valid clock time: day-offset
markers, two hour digits, a colon, and two minute digits. -/
theorem clockTimeFormat_false_eq (t : Int) (h0 : 0 ≤ t) :
    ClockTime.Format t false =
      List.replicate (ClockTime.Split t).1 '>' ++
      [digCh ((ClockTime.Split t).2.1 / 10), digCh (ClockTime.Split t).2.1, ':',
       digCh ((ClockTime.Split t).2.2 / 10), digCh (ClockTime.Split t).2.2] := by
  unfold ClockTime.Format
  rw [if_neg (by simp [ClockTime.IsValid, h0])]
  simp

/-- Characters of the 24-hour rendering of a valid clock time all come
from the day-offset marker, the colon, and the ten digits. -/
theorem clockTimeFormat_chars (t : Int) (h0 : 0 ≤ t) :
    ∀ c ∈ ClockTime.Format t false, c ∈ (">:0123456789").toList := by
  intro c hc
  rw [clockTimeFormat_false_eq t h0] at hc
  simp only [List.mem_append, List.mem_replicate, List.mem_cons,
    List.not_mem_nil, or_false] at hc
  rcases hc with ⟨-, rfl⟩ | rfl | rfl | rfl | rfl | rfl
  · decide
  · have := digCh_mem ((ClockTime.Split t).2.1 / 10)
    simp only [List.mem_cons] at this ⊢
    tauto
  · have := digCh_mem ((ClockTime.Split t).2.1)
    simp only [List.mem_cons] at this ⊢
    tauto
  · decide
  · have := digCh_mem ((ClockTime.Split t).2.2 / 10)
    simp only [List.mem_cons] at this ⊢
    tauto
  · have := digCh_mem ((ClockTime.Split t).2.2)
    simp only [List.mem_cons] at this ⊢
    tauto

/-- Validity of a range with a non-negative start and a larger end. -/
theorem clockRange_isValid (r : ClockRange) (h0 : 0 ≤ r.Start)
    (hlt : r.Start < r.End) : ClockRange.IsValid r = true := by
  unfold ClockRange.IsValid ClockTime.IsValid
  simp only [Bool.and_eq_true, decide_eq_true_eq]
  omega

/-- Characters of the 24-hour rendering of a valid clock range all come
from spaces, dashes, day-offset markers, colons, and digits. -/
theorem clockRangeFormat_chars (r : ClockRange) (h0 : 0 ≤ r.Start)
    (hlt : r.Start < r.End) :
    ∀ c ∈ ClockRange.Format r false, c ∈ (" ->:0123456789").toList := by
  intro c hc
  have hend : (0 : Int) ≤ r.End := le_trans h0 (le_of_lt hlt)
  have hx := clockTimeFormat_chars r.Start h0
  have hy := clockTimeFormat_chars r.End hend
  have hsub : ∀ yy : Str, yy.Sublist (ClockTime.Format r.End false) →
      c ∈ ClockTime.Format r.Start false ++ [' ', '-', ' '] ++ yy →
      c ∈ (" ->:0123456789").toList := by
    intro yy hsubl hmem
    simp only [List.append_assoc, List.mem_append, List.mem_cons,
      List.not_mem_nil, or_false] at hmem
    rcases hmem with hm | (rfl | rfl | rfl) | hm
    · have := hx c hm
      simp only [List.mem_cons] at this ⊢
      tauto
    · decide
    · decide
    · decide
    · have := hy c (hsubl.subset hm)
      simp only [List.mem_cons] at this ⊢
      tauto
  unfold ClockRange.Format at hc
  rw [if_neg (by simp [clockRange_isValid r h0 hlt])] at hc
  simp only [Bool.false_and, Bool.false_eq_true, if_false] at hc
  split at hc
  · split at hc
    · exact hsub _ (List.tail_sublist _) hc
    · exact hsub _ (List.Sublist.refl _) hc
  · exact hsub _ (List.Sublist.refl _) hc

/-- The 24-hour rendering of a valid clock range never contains the
letter i, hence never the substring "invalid". -/
theorem format_no_invalid (r : ClockRange) (h0 : 0 ≤ r.Start) (hlt : r.Start < r.End) :
    ¬ ("invalid".toList <:+: ClockRange.Format r false) := by
  intro hinf
  have hi : 'i' ∈ ClockRange.Format r false := hinf.subset (by decide)
  exact absurd (clockRangeFormat_chars r h0 hlt 'i' hi) (by decide)

/-- Claim C9: every successful parse_clock_range result has a
non-negative start within the first day, a strictly larger end within
the second day, satisfies ClockRange.IsValid, and its 24-hour formatting
never contains the substring "invalid". -/
theorem C9_success_valid (s : Str) (r : ClockRange)
    (h : parseClockRange s = POr.ok (some r)) :
    0 ≤ r.Start ∧ 0 ≤ r.End ∧ r.Start < r.End ∧ r.Start < 1440 ∧ r.End < 2880 ∧
    ClockRange.IsValid r = true ∧
    ¬ ("invalid".toList <:+: ClockRange.Format r false) := by
  have hmain : 0 ≤ r.Start ∧ r.Start < 1440 ∧ r.Start < r.End ∧ r.End < 2880 := by
    unfold parseClockRange at h
    split at h
    · exact absurd h (by simp)
    · split at h
      · exact absurd h (by simp)
      · split at h
        · exact absurd h (by simp)
        · split at h
          · exact absurd h (by simp)
          · split at h
            · split at h
              · exact absurd h (by simp)
              · split at h
                · exact absurd h (by simp)
                · rename_i x3 s1 s2 heqPrep x2 ta ma heqA x1 tb mb heqB hif1 hif2
                    x0 tc mc heqC hnp
                  exact clockAssemble_bounds tc tb r
                    (clockParsePart_bounds _ _ _ _ heqC)
                    (clockParsePart_bounds _ _ _ _ heqB) h
            · rename_i x2 s1 s2 heqPrep x1 ta ma heqA x0 tb mb heqB hif1 hif2
              exact clockAssemble_bounds ta tb r
                (clockParsePart_bounds _ _ _ _ heqA)
                (clockParsePart_bounds _ _ _ _ heqB) h
  obtain ⟨hb1, hb2, hb3, hb4⟩ := hmain
  exact ⟨hb1, by omega, hb3, hb2, hb4, clockRange_isValid r hb1 hb3,
    format_no_invalid r hb1 hb3⟩

/-- Witness for claim C9 at the concrete input "01:00-02:00". -/
theorem C9_witness :
    parseClockRange ("01:00-02:00".toList) = POr.ok (some ⟨60, 120⟩) ∧
    (0 ≤ (60 : Int) ∧ 0 ≤ (120 : Int) ∧ (60 : Int) < 120 ∧ (60 : Int) < 1440 ∧
      (120 : Int) < 2880 ∧ ClockRange.IsValid ⟨60, 120⟩ = true ∧
      ¬ ("invalid".toList <:+: ClockRange.Format ⟨60, 120⟩ false)) :=
  ⟨by decide, C9_success_valid ("01:00-02:00".toList) ⟨60, 120⟩ (by decide)⟩

/-- The composition table fragment has no entry whose second character is
ASCII, so composition never fires next to an ASCII character. -/
theorem composePair_none (a b : Char) (hb : asciiCh b = true) :
    composePair a b = none := by
  unfold composePair
  rw [if_neg]
  simp only [Bool.and_eq_true, decide_eq_true_eq, not_and]
  intro _ hbe
  rw [hbe] at hb
  exact absurd hb (by decide)

/-- NFKC is the identity on ASCII text. -/
theorem nfkc_ascii : ∀ l : Str, l.all asciiCh = true → nfkc l = l
  | [], _ => rfl
  | [_], _ => rfl
  | a :: b :: rest, h => by
    have hb : asciiCh b = true := by
      simp only [List.all_cons, Bool.and_eq_true] at h
      exact h.2.1
    have ht : (b :: rest).all asciiCh = true := by
      simp only [List.all_cons, Bool.and_eq_true] at h ⊢
      exact h.2
    unfold nfkc
    rw [composePair_none a b hb, nfkc_ascii (b :: rest) ht]

/-- Good characters are ASCII. -/
theorem goodCh_ascii (nl lc : Bool) (c : Char) (h : goodCh nl lc c = true) :
    asciiCh c = true := by
  unfold goodCh at h
  unfold asciiCh
  simp only [Bool.or_eq_true, Bool.and_eq_true, decide_eq_true_eq] at h
  simp only [decide_eq_true_eq]
  rcases h with (h | h) | h
  · subst h; decide
  · rw [h.2]; decide
  · obtain ⟨⟨h1, h2⟩, -⟩ := h
    omega

/-- The per-character mapping sends ASCII characters to good characters
or deletes them. -/
theorem mapChar_good (nl lc : Bool) : ∀ n : Nat, n < 128 →
    (mapChar nl lc (Char.ofNat n)).all (goodCh nl lc) = true := by
  rcases nl <;> rcases lc <;> decide

/-- The per-character mapping fixes good characters. -/
theorem mapChar_fix (nl lc : Bool) : ∀ n : Nat, n < 128 →
    goodCh nl lc (Char.ofNat n) = true →
    mapChar nl lc (Char.ofNat n) = some (Char.ofNat n) := by
  rcases nl <;> rcases lc <;> decide

/-- Pointwise form of mapChar_good for an arbitrary ASCII character. -/
theorem mapChar_good_c (nl lc : Bool) (c : Char) (hc : asciiCh c = true) :
    (mapChar nl lc c).all (goodCh nl lc) = true := by
  have h := mapChar_good nl lc c.toNat (by simpa [asciiCh] using hc)
  rwa [Char.ofNat_toNat] at h

/-- Pointwise form of mapChar_fix for an arbitrary good character. -/
theorem mapChar_fix_c (nl lc : Bool) (c : Char) (hgood : goodCh nl lc c = true) :
    mapChar nl lc c = some c := by
  have ha := goodCh_ascii nl lc c hgood
  have h := mapChar_fix nl lc c.toNat (by simpa [asciiCh] using ha)
    (by rwa [Char.ofNat_toNat])
  rwa [Char.ofNat_toNat] at h

/-- All-predicate transfer along sublists. -/
theorem all_of_sublist (p : Char → Bool) (l₁ l₂ : Str) (hs : l₁.Sublist l₂)
    (h : l₂.all p = true) : l₁.all p = true := by
  rw [List.all_eq_true] at h ⊢
  exact fun x hx => h x (hs.subset hx)

/-- The character mapping of ASCII text produces only good characters. -/
theorem filterMap_good (nl lc : Bool) : ∀ l : Str, l.all asciiCh = true →
    (l.filterMap (mapChar nl lc)).all (goodCh nl lc) = true := by
  intro l
  induction l with
  | nil => intro; rfl
  | cons c rest ih =>
    intro hl
    simp only [List.all_cons, Bool.and_eq_true] at hl
    rw [List.filterMap_cons]
    rcases hm : mapChar nl lc c with - | c'
    · exact ih hl.2
    · simp only [List.all_cons, Bool.and_eq_true]
      refine ⟨?_, ih hl.2⟩
      have h4 := mapChar_good_c nl lc c hl.1
      rw [hm] at h4
      simpa using h4

/-- The character mapping fixes lists of good characters. -/
theorem filterMap_fix (nl lc : Bool) : ∀ l : Str, l.all (goodCh nl lc) = true →
    l.filterMap (mapChar nl lc) = l := by
  intro l
  induction l with
  | nil => intro; rfl
  | cons c rest ih =>
    intro hl
    simp only [List.all_cons, Bool.and_eq_true] at hl
    rw [List.filterMap_cons, mapChar_fix_c nl lc c hl.1, ih hl.2]

/-- Space collapsing only drops characters. -/
theorem collapse_sublist : ∀ l : Str, (collapseSpaces l).Sublist l
  | [] => by simp [collapseSpaces]
  | [c] => by simp [collapseSpaces]
  | a :: b :: rest => by
    unfold collapseSpaces
    split
    · exact (collapse_sublist (b :: rest)).cons a
    · exact (collapse_sublist (b :: rest)).cons₂ a

/-- Space collapsing keeps the head character. -/
theorem collapse_head : ∀ (b : Char) (rest : Str),
    ∃ t, collapseSpaces (b :: rest) = b :: t
  | _, [] => ⟨[], rfl⟩
  | b, c :: r => by
    unfold collapseSpaces
    split
    · rename_i hbc
      obtain ⟨t, ht⟩ := collapse_head c r
      rw [ht]
      simp only [Bool.and_eq_true, decide_eq_true_eq] at hbc
      exact ⟨t, by rw [hbc.1, hbc.2]⟩
    · exact ⟨collapseSpaces (c :: r), rfl⟩

/-- Space collapsing leaves no two adjacent spaces. -/
theorem noAdj_collapse : ∀ l : Str, noAdjSp (collapseSpaces l)
  | [] => by simp [collapseSpaces]
  | [c] => by simp [collapseSpaces]
  | a :: b :: rest => by
    unfold collapseSpaces
    split
    · exact noAdj_collapse (b :: rest)
    · rename_i hab
      obtain ⟨t, ht⟩ := collapse_head b rest
      rw [ht]
      have h2 : noAdjSp (b :: t) := ht ▸ noAdj_collapse (b :: rest)
      refine List.Chain'.cons ?_ h2
      simp only [Bool.and_eq_true, decide_eq_true_eq] at hab
      tauto

/-- Space collapsing fixes lists with no two adjacent spaces. -/
theorem collapse_fix : ∀ l : Str, noAdjSp l → collapseSpaces l = l
  | [], _ => rfl
  | [_], _ => rfl
  | a :: b :: rest, h => by
    unfold collapseSpaces
    obtain ⟨hr, h2⟩ := List.chain'_cons.mp h
    rw [if_neg (by simpa using hr), collapse_fix (b :: rest) h2]

/-- Trimming from the end yields a prefix. -/
theorem trimEnd_isPre (p : Char → Bool) (l : Str) : trimEndBy p l <+: l := by
  unfold trimEndBy
  have h := List.reverse_prefix.mpr (List.dropWhile_suffix (l := l.reverse) p)
  rwa [List.reverse_reverse] at h

/-- Trimming both ends yields a contiguous middle piece of the input. -/
theorem trimSpace_within (l : Str) : trimSpace l <:+: l := by
  obtain ⟨t, ht⟩ := trimEnd_isPre goIsSpace (l.dropWhile goIsSpace)
  obtain ⟨s, hs⟩ := List.dropWhile_suffix (l := l) goIsSpace
  refine ⟨s, t, ?_⟩
  show s ++ trimEndBy goIsSpace (l.dropWhile goIsSpace) ++ t = l
  rw [List.append_assoc, ht, hs]

/-- Trimming from the end preserves the no-adjacent-spaces invariant. -/
theorem noAdj_trimEnd (p : Char → Bool) (l : Str) (h : noAdjSp l) :
    noAdjSp (trimEndBy p l) := by
  obtain ⟨t, ht⟩ := trimEnd_isPre p l
  have h2 : noAdjSp (trimEndBy p l ++ t) := by rw [ht]; exact h
  exact (List.chain'_append.mp h2).1

/-- Trimming both ends preserves the no-adjacent-spaces invariant. -/
theorem noAdj_trimSpace (l : Str) (h : noAdjSp l) : noAdjSp (trimSpace l) :=
  noAdj_trimEnd goIsSpace _ (h.suffix (List.dropWhile_suffix _))

/-- Dropping from the front is idempotent. -/
theorem dropWhile_idem (p : Char → Bool) : ∀ l : Str,
    (l.dropWhile p).dropWhile p = l.dropWhile p := by
  intro l
  induction l with
  | nil => rfl
  | cons c rest ih =>
    rw [List.dropWhile_cons]
    split
    · exact ih
    · rename_i hc
      rw [List.dropWhile_cons, if_neg hc]

/-- Trimming from the end is idempotent. -/
theorem trimEnd_idem (p : Char → Bool) (l : Str) :
    trimEndBy p (trimEndBy p l) = trimEndBy p l := by
  unfold trimEndBy
  rw [List.reverse_reverse, dropWhile_idem]

/-- Dropping from the front fixes the result of a trim of an
already-dropped list. -/
theorem dropWhile_trimEnd_fix (p : Char → Bool) (l : Str) :
    (trimEndBy p (l.dropWhile p)).dropWhile p = trimEndBy p (l.dropWhile p) := by
  rcases hx : l.dropWhile p with - | ⟨c, x'⟩
  · simp [trimEndBy]
  · have hidem := dropWhile_idem p l
    rw [hx, List.dropWhile_cons] at hidem
    have hc : ¬ p c = true := by
      intro hc
      rw [if_pos hc] at hidem
      have := (List.dropWhile_suffix (l := x') p).sublist.length_le
      rw [hidem] at this
      simp only [List.length_cons] at this
      omega
    obtain ⟨t, ht⟩ := trimEnd_isPre p (c :: x')
    rcases he : trimEndBy p (c :: x') with - | ⟨d, y⟩
    · rfl
    · rw [he] at ht
      have hd : d = c := by
        have hh := congrArg List.head? ht
        simp only [List.cons_append, List.head?_cons, Option.some.injEq] at hh
        exact hh
      rw [List.dropWhile_cons, hd, if_neg hc]

/-- Trimming whitespace from both ends is idempotent. -/
theorem trimSpace_idem (l : Str) : trimSpace (trimSpace l) = trimSpace l := by
  unfold trimSpace
  rw [dropWhile_trimEnd_fix, trimEnd_idem]

/-- Claim C7 as stated is false: normalize is not idempotent on all
inputs. For the three-character input e, ZERO WIDTH JOINER, COMBINING
ACUTE ACCENT, the first pass deletes the ZWJ and keeps the now-adjacent
combining pair, and the second pass recomposes it under NFKC into a
single character. -/
theorem C7_normalize_not_idempotent :
    normalizeText (normalizeText ['e', ch 0x200d, ch 0x301] false false) false false ≠
      normalizeText ['e', ch 0x200d, ch 0x301] false false ∧
    normalizeText ['e', ch 0x200d, ch 0x301] false false = ['e', ch 0x301] ∧
    normalizeText ['e', ch 0x301] false false = [ch 0xe9] := by
  refine ⟨by decide, by decide, by decide⟩

/-- Claim C7 amended: normalize is idempotent on ASCII input (for every
flag combination); full idempotence fails only because deleting invisible
characters can create new combining sequences that NFKC recomposes on the
second pass. -/
theorem C7_normalize_idempotent_ascii (s : Str) (nl lc : Bool)
    (h : s.all asciiCh = true) :
    normalizeText (normalizeText s nl lc) nl lc = normalizeText s nl lc := by
  have hmap : ((nfkc s).filterMap (mapChar nl lc)).all (goodCh nl lc) = true := by
    rw [nfkc_ascii s h]
    exact filterMap_good nl lc s h
  have hsub : (normalizeText s nl lc).Sublist ((nfkc s).filterMap (mapChar nl lc)) := by
    unfold normalizeText
    exact (trimSpace_within _).sublist.trans (collapse_sublist _)
  have hTgood : (normalizeText s nl lc).all (goodCh nl lc) = true :=
    all_of_sublist _ _ _ hsub hmap
  have hTascii : (normalizeText s nl lc).all asciiCh = true := by
    rw [List.all_eq_true] at hTgood ⊢
    exact fun c hc => goodCh_ascii nl lc c (hTgood c hc)
  have hnoadj : noAdjSp (normalizeText s nl lc) := by
    unfold normalizeText
    exact noAdj_trimSpace _ (noAdj_collapse _)
  show trimSpace (collapseSpaces
    ((nfkc (normalizeText s nl lc)).filterMap (mapChar nl lc))) = normalizeText s nl lc
  rw [nfkc_ascii _ hTascii, filterMap_fix nl lc _ hTgood, collapse_fix _ hnoadj]
  show trimSpace (trimSpace (collapseSpaces ((nfkc s).filterMap (mapChar nl lc)))) =
    normalizeText s nl lc
  rw [trimSpace_idem]
  rfl

/-- Witness for C7's amended theorem at a concrete ASCII input. -/
theorem C7_witness :
    normalizeText (normalizeText ("  Lane   SWIM  ".toList) false true) false true =
      normalizeText ("  Lane   SWIM  ".toList) false true :=
  C7_normalize_idempotent_ascii ("  Lane   SWIM  ".toList) false true (by decide)

end ORec
